import Mathlib

/-!
Verification of the Olive renderer core: frame-cache scheduler, audio block
renderer, and project save action.

Shallow embedding of `src/app/node/processor/renderer/renderer.cpp`,
`src/app/render/backend/audiorenderworker.cpp` and
`src/app/project/projectsavemanager.cpp`, together with proofs and refutations
of the specification's testable properties.

Machine integers are modelled as `Nat`/`Int`, byte buffers as `List ℕ`,
exact rational timestamps as `ℚ`, and IEEE-754 binary64 values as the exact
rationals they denote (rounding is modelled explicitly, see `fp53`).
-/

set_option maxRecDepth 4000

/-! ## §1  Project save manager (`projectsavemanager.cpp`)

`ProjectSaveManager::Action` opens the project file; when the open succeeds it
writes the XML document and closes the file; in all cases it then emits the
`Succeeded` signal exactly once.  The XML writing itself goes through external
Qt services, so the written document is modelled opaquely as the serialized
content handed to the writer. -/

inductive SaveSignal where
  | succeeded
  deriving DecidableEq, Repr

structure SaveOutcome where
  /-- `some doc` iff the project file was opened and the document was written. -/
  written : Option (List ℕ)
  /-- Qt signals emitted by `Action`, in order. -/
  signals : List SaveSignal
  deriving DecidableEq, Repr

/-- `ProjectSaveManager::Action`.  `openOk` is the result of
`QFile::open(WriteOnly | Text)` (external filesystem); `doc` is the XML
serialization of the project produced by the writer calls (external). -/
def projectSaveAction (openOk : Bool) (doc : List ℕ) : SaveOutcome :=
  if openOk then
    { written := some doc, signals := [SaveSignal.succeeded] }
  else
    { written := none, signals := [SaveSignal.succeeded] }

/-! ## §2  IEEE-754 binary64 model

`RendererProcessor::InvalidateCache` snaps the start of the invalidated range
using `double` arithmetic (`rational::toDouble`, `qFloor`).  A binary64 value
is modelled as the exact rational it denotes; `fp53` rounds an exact rational
to 53 significant bits, round-to-nearest ties-to-even, which is what every
IEEE-754 basic operation does to its exact result.  Overflow to infinity and
subnormal underflow are not modelled (the timestamps involved are mid-range).
All arithmetic below is on `ℕ`/`ℤ`/`mkRat` so that the model evaluates by
`decide`. -/

/-- Fuel-driven ⌊log₂⌋ on `ℕ` (`log2fuel f n` is `⌊log₂ n⌋` whenever `f ≥ n`,
in particular in `natLog2` below). -/
def log2fuel : ℕ → ℕ → ℕ
  | 0, _ => 0
  | f + 1, n => if n ≤ 1 then 0 else log2fuel f (n / 2) + 1

/-- `⌊log₂ n⌋` for `n ≥ 1` (and `0` for `n = 0`). -/
def natLog2 (n : ℕ) : ℕ := log2fuel n n

/-- Exact rational product, numerator/denominator form (kernel-reducible;
equal to `a * b`). -/
def qmul (a b : ℚ) : ℚ := mkRat (a.num * b.num) (a.den * b.den)

/-- Exact rational quotient, numerator/denominator form (kernel-reducible;
equal to `a / b`, with the `x / 0 = 0` convention). -/
def qdiv (a b : ℚ) : ℚ :=
  let n := a.num * (b.den : ℤ)
  let d := (a.den : ℤ) * b.num
  if 0 ≤ d then mkRat n d.toNat else mkRat (-n) (-d).toNat

/-- Does `2 ^ e ≤ |q|` hold?  Decided by cross-multiplication in `ℕ`. -/
def pow2le (e : ℤ) (q : ℚ) : Bool :=
  if 0 ≤ e then decide (q.den * 2 ^ e.toNat ≤ q.num.natAbs)
  else decide (q.den ≤ q.num.natAbs * 2 ^ (-e).toNat)

/-- Round `num / den` (`den ≠ 0`) to the nearest natural number, ties to
even. -/
def rneDiv (num den : ℕ) : ℕ :=
  let q := num / den
  let r := num % den
  if 2 * r < den then q
  else if den < 2 * r then q + 1
  else if q % 2 = 0 then q else q + 1

/-- Round an exact rational to the nearest binary64 value (53-bit significand,
round-to-nearest, ties-to-even), returned as the exact rational the double
denotes.  Overflow/subnormal ranges are out of scope. -/
def fp53 (q : ℚ) : ℚ :=
  if q.num = 0 then 0
  else
    let na := q.num.natAbs
    let e0 : ℤ := (natLog2 na : ℤ) - (natLog2 q.den : ℤ)
    -- `2 ^ (e0 - 1) < |q| < 2 ^ (e0 + 1)`; fix up so `2 ^ e ≤ |q| < 2 ^ (e + 1)`
    let e : ℤ := if pow2le e0 q then e0 else e0 - 1
    let em : ℤ := e - 52
    -- significand `m = |q| / 2 ^ em ∈ [2 ^ 52, 2 ^ 53)`, as `mn / md`
    let mn : ℕ := if 0 ≤ em then na else na * 2 ^ (-em).toNat
    let md : ℕ := if 0 ≤ em then q.den * 2 ^ em.toNat else q.den
    let mr : ℤ := if q.num < 0 then -(rneDiv mn md : ℤ) else (rneDiv mn md : ℤ)
    if 0 ≤ em then mkRat (mr * 2 ^ em.toNat) 1 else mkRat mr (2 ^ (-em).toNat)

/-! ## §3  Cache invalidation snapping (`RendererProcessor::InvalidateCache`)

```cpp
double start_range_dbl = start_range.toDouble();
double start_range_numf = start_range_dbl * static_cast<double>(timebase_.denominator());
int64_t start_range_numround = qFloor(start_range_numf/static_cast<double>(timebase_.numerator())) * timebase_.numerator();
rational true_start_range(start_range_numround, timebase_.denominator());

for (rational r=true_start_range;r<=end_range;r+=timebase_) {
  if (!cache_queue_.contains(r)) {
    cache_queue_.append(r);
  }
}
```

`rational::toDouble` is not under `src/`; modelled from the spec ("conversion
to floating point") as the correctly rounded binary64 value of the exact
rational, i.e. `fp53`.  Products and quotients of doubles are rounded once,
as IEEE-754 prescribes. -/

/-- The floating-point snap computed by `InvalidateCache` (the value of
`true_start_range`). -/
def codeSnap (tb s : ℚ) : ℚ :=
  -- double start_range_dbl = start_range.toDouble();
  let start_dbl := fp53 s
  -- double start_range_numf = start_range_dbl * (double)timebase_.denominator();
  let numf := fp53 (qmul start_dbl (fp53 ((tb.den : ℕ) : ℚ)))
  -- int64_t start_range_numround =
  --   qFloor(start_range_numf / (double)timebase_.numerator()) * timebase_.numerator();
  let numround := (fp53 (qdiv numf (fp53 (tb.num : ℚ)))).floor * tb.num
  -- rational true_start_range(start_range_numround, timebase_.denominator());
  mkRat numround tb.den

/-- The exact snap the specification prescribes: `floor(start / timebase) *
timebase` in rational arithmetic. -/
def specSnap (tb s : ℚ) : ℚ := ⌊s / tb⌋ * tb

/-- The enqueue loop of `InvalidateCache`: walk `r` from the snapped start to
`end_range` in `timebase` steps, appending every grid point not already
queued.  For `tb ≤ 0` the C++ loop either exits at once (`r > endR`) or never
terminates; the model returns the queue unchanged in that case. -/
def enqueueLoop (tb endR r : ℚ) (q : List ℚ) : List ℚ :=
  if h : r ≤ endR ∧ 0 < tb then
    enqueueLoop tb endR (r + tb) (if r ∈ q then q else q ++ [r])
  else q
termination_by (⌊(endR - r) / tb⌋ + 1).toNat
decreasing_by
  have h2 : endR - (r + tb) = (endR - r) - tb := by ring
  have h3 : (endR - r - tb) / tb = (endR - r) / tb - 1 := by
    rw [sub_div, div_self (ne_of_gt h.2)]
  have h4 : (0 : ℤ) ≤ ⌊(endR - r) / tb⌋ :=
    Int.floor_nonneg.2 (div_nonneg (by linarith [h.1]) (le_of_lt h.2))
  rw [h2, h3, Int.floor_sub_one]
  omega

/-- The grid `{r, r + tb, r + 2·tb, …} ∩ (-∞, endR]`, in order. -/
def gridPts (tb endR r : ℚ) : List ℚ :=
  if h : r ≤ endR ∧ 0 < tb then r :: gridPts tb endR (r + tb) else []
termination_by (⌊(endR - r) / tb⌋ + 1).toNat
decreasing_by
  have h2 : endR - (r + tb) = (endR - r) - tb := by ring
  have h3 : (endR - r - tb) / tb = (endR - r) / tb - 1 := by
    rw [sub_div, div_self (ne_of_gt h.2)]
  have h4 : (0 : ℤ) ≤ ⌊(endR - r) / tb⌋ :=
    Int.floor_nonneg.2 (div_nonneg (by linarith [h.1]) (le_of_lt h.2))
  rw [h2, h3, Int.floor_sub_one]
  omega

/-- The queue update performed by `InvalidateCache(start, end)`. -/
def invalidateAppend (tb : ℚ) (q : List ℚ) (s e : ℚ) : List ℚ :=
  enqueueLoop tb e (codeSnap tb s) q

/-! ## §4  Cache identity generator (`RendererProcessor::GenerateCacheIDInternal`)

```cpp
QCryptographicHash hash(QCryptographicHash::Sha1);
hash.addData(cache_name_.toUtf8());
hash.addData(QString::number(cache_time_).toUtf8());
hash.addData(QString::number(width_).toUtf8());
hash.addData(QString::number(height_).toUtf8());
hash.addData(QString::number(format_).toUtf8());
hash.addData(QString::number(divider_).toUtf8());
```

`QCryptographicHash` (external Qt service) computes SHA-1 (FIPS 180-1) over
the concatenated bytes; it is modelled below as the full SHA-1 algorithm over
byte lists.  `QString::number` renders an integer in decimal, with a leading
`-` for negative values; cache names are modelled as their UTF-8 byte
lists. -/

/-- Decimal rendering of a natural number as ASCII bytes
(`QString::number` on a non-negative value). -/
def natStr (n : ℕ) : List ℕ :=
  if n = 0 then [48] else ((Nat.digits 10 n).map (fun d => d + 48)).reverse

/-- `QString::number` on a (signed) integer: decimal digits, `'-'` (byte 45)
prefix when negative. -/
def intStr (z : ℤ) : List ℕ :=
  if z < 0 then 45 :: natStr z.natAbs else natStr z.natAbs

/-- The byte string fed to the hash: name, generation time, width, height,
format, divider, concatenated with no separators. -/
def cacheIDPreimage (name : List ℕ) (t w h f d : ℤ) : List ℕ :=
  name ++ (intStr t ++ (intStr w ++ (intStr h ++ (intStr f ++ intStr d))))

/-- Truncate to 32 bits. -/
def w32 (n : ℕ) : ℕ := n % 4294967296

/-- 32-bit rotate left by `k` (for `x < 2^32`). -/
def rotl (k x : ℕ) : ℕ := w32 (x * 2 ^ k) ||| x / 2 ^ (32 - k)

/-- Big-endian 4-byte groups to 32-bit words. -/
def bytesToWords : List ℕ → List ℕ
  | b0 :: b1 :: b2 :: b3 :: rest =>
    (((b0 * 256 + b1) * 256 + b2) * 256 + b3) :: bytesToWords rest
  | _ => []

/-- Extend the 16-word message schedule by `f` more words
(`w[i] = rotl1 (w[i-3] ^ w[i-8] ^ w[i-14] ^ w[i-16])`). -/
def schedExt : ℕ → List ℕ → List ℕ
  | 0, ws => ws
  | f + 1, ws =>
    schedExt f (ws ++ [rotl 1 ((ws.getD (ws.length - 3) 0) ^^^ (ws.getD (ws.length - 8) 0) ^^^
      (ws.getD (ws.length - 14) 0) ^^^ (ws.getD (ws.length - 16) 0))])

structure SHA1State where
  a : ℕ
  b : ℕ
  c : ℕ
  d : ℕ
  e : ℕ
  deriving DecidableEq, Repr

/-- SHA-1 round function by round index. -/
def sha1F (i b c d : ℕ) : ℕ :=
  if i < 20 then (b &&& c) ||| ((b ^^^ 4294967295) &&& d)
  else if i < 40 then b ^^^ c ^^^ d
  else if i < 60 then (b &&& c) ||| (b &&& d) ||| (c &&& d)
  else b ^^^ c ^^^ d

/-- SHA-1 round constant by round index. -/
def sha1K (i : ℕ) : ℕ :=
  if i < 20 then 0x5A827999
  else if i < 40 then 0x6ED9EBA1
  else if i < 60 then 0x8F1BBCDC
  else 0xCA62C1D6

/-- One SHA-1 round. -/
def sha1Round (ws : List ℕ) (st : SHA1State) (i : ℕ) : SHA1State :=
  let temp := w32 (rotl 5 st.a + sha1F i st.b st.c st.d + st.e + sha1K i + ws.getD i 0)
  ⟨temp, st.a, rotl 30 st.b, st.c, st.d⟩

/-- Process one 64-byte chunk. -/
def processChunk (h : SHA1State) (chunk : List ℕ) : SHA1State :=
  let ws := schedExt 64 (bytesToWords chunk)
  let st := (List.range 80).foldl (sha1Round ws) h
  ⟨w32 (h.a + st.a), w32 (h.b + st.b), w32 (h.c + st.c), w32 (h.d + st.d), w32 (h.e + st.e)⟩

/-- Split a byte list into 64-byte chunks (first argument is fuel ≥ length). -/
def splitChunks : ℕ → List ℕ → List (List ℕ)
  | 0, _ => []
  | _ + 1, [] => []
  | f + 1, l => l.take 64 :: splitChunks f (l.drop 64)

/-- A 32-bit word as 4 big-endian bytes. -/
def wordBytes (w : ℕ) : List ℕ :=
  [w / 16777216 % 256, w / 65536 % 256, w / 256 % 256, w % 256]

/-- SHA-1 (FIPS 180-1) of a byte list, as a 20-byte digest.  Models the
external `QCryptographicHash(QCryptographicHash::Sha1)` service. -/
def sha1 (msg : List ℕ) : List ℕ :=
  let len := msg.length
  let padLen := (119 - len % 64) % 64
  let bitLen := len * 8
  let lenBytes := [bitLen / 2 ^ 56 % 256, bitLen / 2 ^ 48 % 256, bitLen / 2 ^ 40 % 256,
    bitLen / 2 ^ 32 % 256, bitLen / 2 ^ 24 % 256, bitLen / 2 ^ 16 % 256,
    bitLen / 2 ^ 8 % 256, bitLen % 256]
  let padded := msg ++ 128 :: (List.replicate padLen 0 ++ lenBytes)
  let blocks := splitChunks padded.length padded
  let hf := blocks.foldl processChunk
    ⟨0x67452301, 0xEFCDAB89, 0x98BADCFE, 0x10325476, 0xC3D2E1F0⟩
  wordBytes hf.a ++ wordBytes hf.b ++ wordBytes hf.c ++ wordBytes hf.d ++ wordBytes hf.e

/-- `GenerateCacheIDInternal`'s hash computation: SHA-1 over the concatenated
canonical field strings. -/
def generateCacheID (name : List ℕ) (t w h f d : ℤ) : List ℕ :=
  sha1 (cacheIDPreimage name t w h f d)

/-- Big-endian base-256 packing of a byte list. -/
def beEnc (l : List ℕ) : ℕ := l.foldr (fun b acc => b + 256 * acc) 0

/-! ## §5  Renderer scheduler state (`RendererProcessor`)

The mutable state of a `RendererProcessor` instance.  Worker/download thread
pools are modelled by their sizes, the master texture and the readback buffer
by their presence; `inFlightPrimary` is instrumentation counting primary work
items dispatched to the master worker and neither completed nor cancelled
(the quantity claim C4 is about).  Per the spec's concurrency model (§5),
worker completion signals are delivered serialized on the scheduler's own
context, so the instance evolves by a sequence of atomic events. -/

structure RState where
  started : Bool
  width : ℤ
  height : ℤ
  format : ℤ
  mode : ℤ
  divider : ℤ
  effectiveWidth : ℤ
  effectiveHeight : ℤ
  cacheName : List ℕ
  cacheTime : ℤ
  cacheId : List ℕ
  timebase : Option ℚ
  cacheQueue : List ℚ
  caching : Bool
  connected : Bool
  threads : ℕ
  downloadThreads : ℕ
  masterTexture : Bool
  loadBuffer : Bool
  cacheFrame : ℚ
  inFlightPrimary : ℕ
  deriving DecidableEq

/-- The constructor `RendererProcessor()` : `started_(false), width_(0),
height_(0), divider_(1), caching_(false)`; everything else empty/zero. -/
def initState : RState where
  started := false
  width := 0
  height := 0
  format := 0
  mode := 0
  divider := 1
  effectiveWidth := 0
  effectiveHeight := 0
  cacheName := []
  cacheTime := 0
  cacheId := []
  timebase := none
  cacheQueue := []
  caching := false
  connected := false
  threads := 0
  downloadThreads := 0
  masterTexture := false
  loadBuffer := false
  cacheFrame := 0
  inFlightPrimary := 0

/-- `CalculateEffectiveDimensions`: `effective_width_ = width_ / divider_`
(C++ `int` division truncates toward zero, `Int.tdiv`). -/
def CalculateEffectiveDimensions (st : RState) : RState :=
  { st with effectiveWidth := Int.tdiv st.width st.divider,
            effectiveHeight := Int.tdiv st.height st.divider }

/-- The byte string `GenerateCacheIDInternal` feeds to the hash for this
state. -/
def cacheIDPreimageOf (st : RState) : List ℕ :=
  cacheIDPreimage st.cacheName st.cacheTime st.width st.height st.format st.divider

/-- `GenerateCacheIDInternal`: returns early — leaving `cache_id_` untouched —
when the cache name is empty or an effective dimension is zero; otherwise
stores the SHA-1 hex identity (modelled by the digest bytes). -/
def GenerateCacheIDInternal (st : RState) : RState :=
  if st.cacheName = [] ∨ st.effectiveWidth = 0 ∨ st.effectiveHeight = 0 then st
  else { st with cacheId := sha1 (cacheIDPreimageOf st) }

/-- `SetCacheName(s)`: stores the name, stamps the generation time
(`QDateTime::currentMSecsSinceEpoch`, passed in as `now`), regenerates. -/
def SetCacheName (st : RState) (s : List ℕ) (now : ℤ) : RState :=
  GenerateCacheIDInternal { st with cacheName := s, cacheTime := now }

/-- `SetTimebase`. -/
def SetTimebase (st : RState) (tb : ℚ) : RState := { st with timebase := some tb }

/-- `Stop()`: no-op when not started; otherwise cancels and clears both
pools, releases the master texture and the readback buffer.  Note that
`caching_` is *not* reset (faithful to the source); cancelling the pools
drops any in-flight primary work. -/
def Stop (st : RState) : RState :=
  if st.started = false then st
  else { st with
    started := false, downloadThreads := 0, threads := 0,
    masterTexture := false, loadBuffer := false, inFlightPrimary := 0 }

/-- `Start()` (no-op when already started): allocates both pools at the ideal
thread count `n`, the master texture and the readback buffer. -/
def Start (st : RState) (n : ℕ) : RState :=
  if st.started = true then st
  else { st with
    threads := n, downloadThreads := n, masterTexture := true,
    loadBuffer := true, started := true }

/-- `SetParameters(width, height, format, mode, divider)`: stop, store the
parameters (`divider_` only when the argument is positive), recompute
effective dimensions, regenerate the identity. -/
def SetParameters (st : RState) (w h f m d : ℤ) : RState :=
  let st1 := Stop st
  let st2 := { st1 with width := w, height := h, format := f, mode := m }
  let st3 := if 0 < d then { st2 with divider := d } else st2
  GenerateCacheIDInternal (CalculateEffectiveDimensions st3)

/-- `SetDivider(divider)`: stop, store, recompute, regenerate. -/
def SetDivider (st : RState) (d : ℤ) : RState :=
  GenerateCacheIDInternal (CalculateEffectiveDimensions { Stop st with divider := d })

/-- `CacheNext()`: bail out when the queue is empty, the texture input is
disconnected, or a primary render is already in flight; otherwise start the
pipeline, pop the front timestamp and dispatch it to the master worker. -/
def CacheNext (st : RState) (n : ℕ) : RState :=
  if st.cacheQueue = [] ∨ st.connected = false ∨ st.caching = true then st
  else
    let st1 := Start st n
    { st1 with
      cacheFrame := st1.cacheQueue.headI, cacheQueue := st1.cacheQueue.tail,
      caching := true, inFlightPrimary := st1.inFlightPrimary + 1 }

/-- `InvalidateCache(start, end)`: snap, enqueue the grid, try to advance.
With a null timebase the C++ arithmetic is undefined (division by a zero
denominator); the model leaves the state unchanged in that unexercised
case. -/
def InvalidateCache (st : RState) (s e : ℚ) (n : ℕ) : RState :=
  match st.timebase with
  | none => st
  | some tb => CacheNext { st with cacheQueue := invalidateAppend tb st.cacheQueue s e } n

/-- `ThreadCallback()` with `sender() == master_thread_`: clear the caching
flag (the dispatched primary item is now complete), hand the texture to a
download worker or delete the stale cache file (external effects), advance. -/
def ThreadCallbackMaster (st : RState) (n : ℕ) : RState :=
  CacheNext { st with caching := false, inFlightPrimary := st.inFlightPrimary - 1 } n

/-- `ThreadCallback()` from a non-master sender: ignored. -/
def ThreadCallbackOther (st : RState) : RState := st

/-- External stimuli handled on the scheduler context. -/
inductive REvent where
  | setCacheName (s : List ℕ) (now : ℤ)
  | setTimebase (tb : ℚ)
  | setParameters (w h f m d : ℤ)
  | setDivider (d : ℤ)
  | invalidate (s e : ℚ) (n : ℕ)
  | masterDone (n : ℕ)
  | otherDone
  | stopReq
  | connect
  | disconnect

/-- One scheduler step. -/
def stepR (st : RState) : REvent → RState
  | .setCacheName s now => SetCacheName st s now
  | .setTimebase tb => SetTimebase st tb
  | .setParameters w h f m d => SetParameters st w h f m d
  | .setDivider d => SetDivider st d
  | .invalidate s e n => InvalidateCache st s e n
  | .masterDone n => ThreadCallbackMaster st n
  | .otherDone => ThreadCallbackOther st
  | .stopReq => Stop st
  | .connect => { st with connected := true }
  | .disconnect => { st with connected := false }

/-- The state after a sequence of events from construction. -/
def runR (evs : List REvent) : RState := evs.foldl stepR initState

/-! ### Read path (`RendererProcessor::Value`) -/

/-- The distinct warning conditions `Value` can log. -/
inductive RWarning where
  | noCacheID
  | noTimebase
  deriving DecidableEq

structure ValueOutcome where
  /-- `true` = the master texture was returned; `false` = the null variant. -/
  texture : Bool
  /-- `qWarning` messages logged, in order. -/
  warnings : List RWarning
  /-- The scheduler state afterwards. -/
  post : RState
  deriving DecidableEq

/-- `Value(output, time)` for the texture output.  `fileExists`/`openOk`
summarize the external filesystem/image-I/O services for the cache file of
`time`; the disconnected case returns silently (source has only a comment),
the missing-id and missing-timebase cases each log a distinct warning. -/
def Value (st : RState) (isTextureOutput : Bool) (time : ℚ)
    (fileExists openOk : Bool) : ValueOutcome :=
  if isTextureOutput = true then
    if st.connected = false then ⟨false, [], st⟩
    else if st.cacheId = [] then ⟨false, [RWarning.noCacheID], st⟩
    else if st.timebase = none then ⟨false, [RWarning.noTimebase], st⟩
    else if fileExists = true then
      if openOk = true then ⟨true, [], st⟩ else ⟨false, [], st⟩
    else ⟨false, [], st⟩
  else ⟨false, [], st⟩

/-- A state whose cache id was generated and whose name was then cleared
(`SetCacheName("")` regenerates but the guard leaves the old id in place). -/
def c6State : RState :=
  { initState with cacheId := [171], effectiveWidth := 1, effectiveHeight := 1 }

/-- A state with a cache id and timebase but a disconnected texture input. -/
def c7DisconnectedState : RState :=
  { initState with connected := false, cacheId := [1], timebase := some 1 }

/-- A connected state with no cache identity yet. -/
def c7WitnessState : RState := { initState with connected := true }

/-- A freshly started pipeline with default parameters. -/
def c9StartedState : RState := { initState with started := true }

/-- A started pipeline with cache name `"c"` and 6×4 frames at divider 1. -/
def c9WitnessState : RState :=
  { initState with
    started := true, cacheName := [99], width := 6, height := 4,
    effectiveWidth := 6, effectiveHeight := 4 }

/-- The scheduler's mutual-exclusion invariant: at most one primary item in
flight, and none unless the `caching_` flag is set. -/
def SchedInv (st : RState) : Prop :=
  st.inFlightPrimary ≤ 1 ∧ (st.caching = false → st.inFlightPrimary = 0)

/-! ## §6  Audio block renderer (`AudioRenderWorker::RenderBlock`)

Sample buffers are byte lists.  `AudioRenderingParams` is not under `src/`;
modelled from the spec: "sample rate, channel layout, sample format —
provides exact byte↔sample↔time conversion functions (`time_to_bytes`,
`bytes_to_samples`, `samples_to_bytes`) … exact integer arithmetic", with the
channel layout and sample format folded into the per-sample byte size. -/

structure AudioRenderingParams where
  sampleRate : ℕ
  /-- Bytes per (per-channel complete) sample: `samples_to_bytes(1)`. -/
  bytesPerSample : ℕ
  deriving DecidableEq

/-- Modelled from the spec: exact samples→bytes conversion. -/
def AudioRenderingParams.samples_to_bytes (p : AudioRenderingParams) (n : ℤ) : ℤ :=
  n * p.bytesPerSample

/-- Modelled from the spec: exact time→samples conversion. -/
def AudioRenderingParams.time_to_samples (p : AudioRenderingParams) (t : ℚ) : ℤ :=
  ⌊t * p.sampleRate⌋

/-- Modelled from the spec: exact time→bytes conversion. -/
def AudioRenderingParams.time_to_bytes (p : AudioRenderingParams) (t : ℚ) : ℤ :=
  p.samples_to_bytes (p.time_to_samples t)

/-- Modelled from the spec: exact bytes→samples conversion (C++ integer
division). -/
def AudioRenderingParams.bytes_to_samples (p : AudioRenderingParams) (b : ℤ) : ℤ :=
  Int.tdiv b p.bytesPerSample

/-- `TimeRange` (`in()` is a Lean keyword, hence `rin`/`rout`). -/
structure TimeRange where
  rin : ℚ
  rout : ℚ
  deriving DecidableEq

def TimeRange.length (r : TimeRange) : ℚ := r.rout - r.rin

/-- A timeline `Block` as read by the audio renderer. -/
structure Block where
  bin : ℚ
  bout : ℚ
  media_length : ℚ
  speed : ℚ
  reversed : Bool

/-- `Block::length()`: the block's duration as placed on the timeline. -/
def Block.length (b : Block) : ℚ := b.bout - b.bin

/-- `memcpy(block_range_buffer.data() + off, data, data.size())` into a
fixed-size buffer: write the bytes one by one at increasing indices
(`List.set` ignores out-of-range indices, matching the fact that an
out-of-bounds `memcpy` cannot enlarge the `QByteArray`; in-bounds writes are
exact). -/
def writeBytes : List ℕ → ℕ → List ℕ → List ℕ
  | buf, _, [] => buf
  | buf, off, b :: rest => writeBytes (buf.set off b) (off + 1) rest

/-- The nearest-neighbour speed-resampling loop
(`for (double i = 0; i < sample_count; i += clip_speed)`), with `i` carried in
binary64 (`fp53` after each increment).  `fuel` bounds the iterations: the
C++ loop does not terminate for `clip_speed ≤ 0` (or once `i + clip_speed`
rounds back to `i`), so the model is cut off by fuel in those unexercised
cases. -/
def speedAdjustGo (p : AudioRenderingParams) (samples : List ℕ) (cnt : ℤ)
    (speed : ℚ) : ℕ → ℚ → List ℕ → List ℕ
  | 0, _, acc => acc
  | fuel + 1, i, acc =>
    if i < (cnt : ℚ) then
      let sample_index : ℤ := ⌊i⌋
      let byte_index : ℤ := p.samples_to_bytes sample_index
      -- samples_from_this_block.mid(byte_index, samples_to_bytes(1))
      let sample_at_this_index :=
        (samples.drop byte_index.toNat).take (p.samples_to_bytes 1).toNat
      speedAdjustGo p samples cnt speed fuel (fp53 (i + speed)) (acc ++ sample_at_this_index)
    else acc

/-- The speed-adjustment step of `RenderBlock`. -/
def speedAdjust (p : AudioRenderingParams) (fuel : ℕ) (speed : ℚ)
    (samples : List ℕ) : List ℕ :=
  speedAdjustGo p samples (p.bytes_to_samples samples.length) speed fuel 0 []

/-- `(buf.drop i).take s`: the `s` bytes at offset `i`. -/
def segAt (buf : List ℕ) (i s : ℕ) : List ℕ := (buf.drop i).take s

/-- Replace the bytes at offset `i` by `seg` (in-bounds splice). -/
def overwrite (buf : List ℕ) (i : ℕ) (seg : List ℕ) : List ℕ :=
  buf.take i ++ seg ++ buf.drop (i + seg.length)

/-- One iteration of the reversal loop: save the `s` bytes at `src` to the
scratch buffer (`segAt buf src s`), copy the `s` bytes at `dst` over `src`,
write the scratch back at `dst` — both reads happen before the first write,
as in the source (`temp` is filled first, and `dst` is only written last). -/
def swapSeg (buf : List ℕ) (src dst s : ℕ) : List ℕ :=
  overwrite (overwrite buf src (segAt buf dst s)) dst (segAt buf src s)

/-- The reversal loop: `n` remaining iterations, current `src_index`, with
`dst = size - sample_size - src_index`. -/
def revGo (s len : ℕ) : ℕ → ℕ → List ℕ → List ℕ
  | 0, _, buf => buf
  | n + 1, src, buf => revGo s len n (src + s) (swapSeg buf src (len - s - src) s)

/-- The in-place sample reversal of `RenderBlock`
(`for (int src_index = 0; src_index < half_buffer_sz; src_index += sample_size)`):
the iteration count is `⌈(size/2) / sample_size⌉`. -/
def reverseSamples (s : ℕ) (buf : List ℕ) : List ℕ :=
  let len := buf.length
  let half_buffer_sz := len / 2
  revGo s len ((half_buffer_sz + s - 1) / s) 0 buf

/-- Reversing a list chunk by chunk (specification-side helper: reverse the
sequence of `s`-byte samples). -/
def chunkRev (s : ℕ) (l : List ℕ) : List ℕ :=
  if h : s = 0 ∨ l = [] then l
  else chunkRev s (l.drop s) ++ l.take s
termination_by l.length
decreasing_by
  push_neg at h
  have h0 : 0 < l.length := List.length_pos.2 h.2
  simp only [List.length_drop]
  omega

/-- `AudioRenderWorker::RenderBlock`, the `kSamples` buffer it produces.
`eval` stands for the external graph evaluation
(`ProcessNode(NodeDependency(b, range_for_block)).Take(kSamples)`); `fuel`
bounds the speed-resampling loop (see `speedAdjustGo`); `active_blocks` is
the external `track->BlocksAtTimeRange(range)`.  The non-audio table merging
(`NodeValueTable::Merge`) carries no sample data and is not modelled. -/
def renderBlockStep (p : AudioRenderingParams) (eval : Block → TimeRange → List ℕ)
    (fuel : ℕ) (range : TimeRange) (buf : List ℕ) (b : Block) : List ℕ :=
  let range_for_block : TimeRange := ⟨max b.bin range.rin, min b.bout range.rout⟩
  let samples_from_this_block := eval b range_for_block
  let destination_offset := p.time_to_bytes (range_for_block.rin - range.rin)
  let maximum_copy_size := p.time_to_bytes range_for_block.length
  let adjusted :=
    if samples_from_this_block.isEmpty = true then samples_from_this_block
    else
      let s1 := if b.media_length ≠ b.length
        then speedAdjust p fuel b.speed samples_from_this_block
        else samples_from_this_block
      if b.reversed = true then reverseSamples (p.samples_to_bytes 1).toNat s1 else s1
  let copied_size : ℤ := if samples_from_this_block.isEmpty = true then 0
    else adjusted.length
  let buf1 := if samples_from_this_block.isEmpty = true then buf
    else writeBytes buf destination_offset.toNat adjusted
  -- if (copied_size < maximum_copy_size) memset(..., 0, maximum - copied)
  if copied_size < maximum_copy_size then
    writeBytes buf1 (destination_offset + copied_size).toNat
      (List.replicate (maximum_copy_size - copied_size).toNat 0)
  else buf1

def RenderBlock (p : AudioRenderingParams) (eval : Block → TimeRange → List ℕ)
    (fuel : ℕ) (active_blocks : List Block) (range : TimeRange) : List ℕ :=
  -- QByteArray block_range_buffer(audio_params_.time_to_bytes(range.length()), 0);
  let block_range_buffer := List.replicate (p.time_to_bytes range.length).toNat 0
  active_blocks.foldl (renderBlockStep p eval fuel range) block_range_buffer

/-! ## Theorems -/

/-- C10: `ProjectSaveManager::Action` emits `Succeeded` exactly once on every
invocation; when the file cannot be opened, nothing is written but success is
still reported. -/
theorem projectSaveAction_succeeds_once (openOk : Bool) (doc : List ℕ) :
    (projectSaveAction openOk doc).signals = [SaveSignal.succeeded] ∧
    (projectSaveAction openOk doc).written =
      (if openOk then some doc else none) := by
  cases openOk <;> simp [projectSaveAction]

/-- Every element of the grid starting at `r` is at least `r`. -/
theorem gridPts_ge (tb endR r x : ℚ) (hx : x ∈ gridPts tb endR r) : r ≤ x := by
  rw [gridPts] at hx
  by_cases h : r ≤ endR ∧ 0 < tb
  · rw [dif_pos h] at hx
    rcases List.mem_cons.1 hx with rfl | hx'
    · exact le_refl x
    · have := gridPts_ge tb endR (r + tb) x hx'
      linarith [h.2]
  · rw [dif_neg h] at hx
    exact absurd hx (List.not_mem_nil x)
termination_by (⌊(endR - r) / tb⌋ + 1).toNat
decreasing_by
  have h2 : endR - (r + tb) = (endR - r) - tb := by ring
  have h3 : (endR - r - tb) / tb = (endR - r) / tb - 1 := by
    rw [sub_div, div_self (ne_of_gt h.2)]
  have h4 : (0 : ℤ) ≤ ⌊(endR - r) / tb⌋ :=
    Int.floor_nonneg.2 (div_nonneg (by linarith [h.1]) (le_of_lt h.2))
  rw [h2, h3, Int.floor_sub_one]
  omega

/-- The enqueue loop appends exactly the grid points that are not already in
the queue. -/
theorem enqueueLoop_eq_filter (tb endR r : ℚ) (q : List ℚ) (htb : 0 < tb) :
    enqueueLoop tb endR r q =
      q ++ (gridPts tb endR r).filter (fun x => decide (x ∉ q)) := by
  by_cases h : r ≤ endR
  · rw [enqueueLoop, gridPts, dif_pos ⟨h, htb⟩, dif_pos ⟨h, htb⟩]
    have IH := enqueueLoop_eq_filter tb endR (r + tb)
      (if r ∈ q then q else q ++ [r]) htb
    by_cases hq : r ∈ q
    · rw [if_pos hq] at IH ⊢
      rw [IH, List.filter_cons]
      simp [hq]
    · rw [if_neg hq] at IH ⊢
      rw [IH, List.filter_cons]
      have hcong : (gridPts tb endR (r + tb)).filter
            (fun x => decide (x ∉ q ++ [r])) =
          (gridPts tb endR (r + tb)).filter (fun x => decide (x ∉ q)) := by
        apply List.filter_congr
        intro x hx
        have hxr : r < x := by
          have := gridPts_ge tb endR (r + tb) x hx
          linarith
        simp only [decide_eq_decide, List.mem_append, List.mem_singleton]
        constructor
        · intro hnot hmem; exact hnot (Or.inl hmem)
        · intro hnot hmem
          rcases hmem with hmem | hmem
          · exact hnot hmem
          · exact absurd hmem.symm (ne_of_lt hxr)
      rw [hcong]
      simp [hq]
  · have hne : ¬ (r ≤ endR ∧ 0 < tb) := fun hh => h hh.1
    rw [enqueueLoop, gridPts, dif_neg hne, dif_neg hne]
    simp
termination_by (⌊(endR - r) / tb⌋ + 1).toNat
decreasing_by
  have h2 : endR - (r + tb) = (endR - r) - tb := by ring
  have h3 : (endR - r - tb) / tb = (endR - r) / tb - 1 := by
    rw [sub_div, div_self (ne_of_gt htb)]
  have h4 : (0 : ℤ) ≤ ⌊(endR - r) / tb⌋ :=
    Int.floor_nonneg.2 (div_nonneg (by linarith) (le_of_lt htb))
  rw [h2, h3, Int.floor_sub_one]
  omega

/-- C1 counterexample: with timebase `1/3`, `start = (2^60 - 1)/(3·2^60)` and
`end = 1/3`, the double-precision snap rounds `start` *up* to `1/3` (the
products `toDouble(start) * 3` round to exactly `1.0`), so the code enqueues
only `{1/3}`, while the exact rational grid of the claim is `{0, 1/3}`.  The
appended set is therefore not the claimed grid. -/
theorem c1_fp_snap_counterexample :
    invalidateAppend (mkRat 1 3) []
        (mkRat 1152921504606846975 3458764513820540928) (mkRat 1 3) ≠
      [] ++ (gridPts (mkRat 1 3) (mkRat 1 3)
          (specSnap (mkRat 1 3) (mkRat 1152921504606846975 3458764513820540928))).filter
        (fun x => decide (x ∉ ([] : List ℚ))) := by
  have hsnap : codeSnap (mkRat 1 3) (mkRat 1152921504606846975 3458764513820540928) =
      mkRat 1 3 := by decide
  have hspec : specSnap (mkRat 1 3) (mkRat 1152921504606846975 3458764513820540928) =
      0 := by
    unfold specSnap
    rw [Rat.mkRat_eq_div, Rat.mkRat_eq_div]
    norm_num
  have hloop : enqueueLoop (mkRat 1 3) (mkRat 1 3) (mkRat 1 3) ([] : List ℚ) =
      [mkRat 1 3] := by
    rw [enqueueLoop, dif_pos ⟨le_refl _, by norm_num [Rat.mkRat_eq_div]⟩,
      enqueueLoop, dif_neg (by norm_num [Rat.mkRat_eq_div])]
    simp
  have hgrid : gridPts (mkRat 1 3) (mkRat 1 3) 0 = [0, 0 + mkRat 1 3] := by
    rw [gridPts, dif_pos ⟨by norm_num [Rat.mkRat_eq_div], by norm_num [Rat.mkRat_eq_div]⟩,
      gridPts, dif_pos ⟨by norm_num [Rat.mkRat_eq_div], by norm_num [Rat.mkRat_eq_div]⟩,
      gridPts, dif_neg (by norm_num [Rat.mkRat_eq_div])]
  unfold invalidateAppend
  rw [hsnap, hspec, hloop, hgrid]
  simp [Rat.mkRat_eq_div]

/-- C1 (amended): `InvalidateCache(start, end)` with a positive timebase `t`
appends exactly the grid points `{snap(start), snap(start) + t, …, ≤ end}`
that are not already queued — but `snap` is the double-precision floor
division actually computed by the code (`codeSnap`), not the exact rational
`floor(start/t)·t` of the original claim. -/
theorem invalidateAppend_eq_grid_filter (tb s e : ℚ) (q : List ℚ) (htb : 0 < tb) :
    invalidateAppend tb q s e =
      q ++ (gridPts tb e (codeSnap tb s)).filter (fun x => decide (x ∉ q)) :=
  enqueueLoop_eq_filter tb e (codeSnap tb s) q htb

/-- Witness for `invalidateAppend_eq_grid_filter` at timebase `1/3`,
`start = 0`, `end = 1/3`, queue `[1/3]`. -/
theorem invalidateAppend_eq_grid_filter_witness :
    0 < mkRat 1 3 ∧
    invalidateAppend (mkRat 1 3) [mkRat 1 3] 0 (mkRat 1 3) =
      [mkRat 1 3] ++ (gridPts (mkRat 1 3) (mkRat 1 3)
          (codeSnap (mkRat 1 3) 0)).filter (fun x => decide (x ∉ [mkRat 1 3])) :=
  ⟨by norm_num [Rat.mkRat_eq_div],
   invalidateAppend_eq_grid_filter _ _ _ _ (by norm_num [Rat.mkRat_eq_div])⟩

/-! ### Digit-string injectivity -/

/-- Every byte of `natStr n` is an ASCII digit, in particular `≥ 48`. -/
theorem mem_natStr_ge (n x : ℕ) (hx : x ∈ natStr n) : 48 ≤ x := by
  unfold natStr at hx
  split at hx
  · simp only [List.mem_singleton] at hx
    omega
  · simp only [List.mem_reverse, List.mem_map] at hx
    obtain ⟨d, _, rfl⟩ := hx
    exact Nat.le_add_left 48 d

/-- Decimal rendering of naturals is injective. -/
theorem natStr_inj (a b : ℕ) (h : natStr a = natStr b) : a = b := by
  have digits_eq_zero : ∀ m : ℕ, Nat.digits 10 m = [0] → m = 0 := by
    intro m hm
    have := Nat.ofDigits_digits 10 m
    rw [hm] at this
    simpa [Nat.ofDigits] using this.symm
  have map48 : ∀ l : List ℕ, l.map (fun d => d + 48) = [48] → l = [0] := by
    intro l hl
    cases l with
    | nil => simp at hl
    | cons x t =>
      cases t with
      | nil =>
        simp only [List.map_cons, List.map_nil, List.cons.injEq, and_true] at hl
        simp [show x = 0 by omega]
      | cons y u => simp at hl
  unfold natStr at h
  by_cases ha : a = 0 <;> by_cases hb : b = 0
  · omega
  · rw [if_pos ha, if_neg hb] at h
    have : (Nat.digits 10 b).map (fun d => d + 48) = [48] := by
      have := congrArg List.reverse h
      simpa using this.symm
    exact absurd (digits_eq_zero b (map48 _ this)) hb
  · rw [if_neg ha, if_pos hb] at h
    have : (Nat.digits 10 a).map (fun d => d + 48) = [48] := by
      have := congrArg List.reverse h
      simpa using this
    exact absurd (digits_eq_zero a (map48 _ this)) ha
  · rw [if_neg ha, if_neg hb] at h
    have h1 : (Nat.digits 10 a).map (fun d => d + 48) =
        (Nat.digits 10 b).map (fun d => d + 48) := by
      have := congrArg List.reverse h
      simpa using this
    have h2 : Nat.digits 10 a = Nat.digits 10 b := by
      have hinj : Function.Injective (fun d : ℕ => d + 48) := fun x y hxy => by
        have hxy' : x + 48 = y + 48 := hxy
        omega
      exact List.map_injective_iff.2 hinj h1
    have := Nat.ofDigits_digits 10 a
    rw [h2, Nat.ofDigits_digits] at this
    exact this.symm

/-- `QString::number` rendering of integers is injective. -/
theorem intStr_inj (y z : ℤ) (h : intStr y = intStr z) : y = z := by
  unfold intStr at h
  by_cases hy : y < 0 <;> by_cases hz : z < 0
  · rw [if_pos hy, if_pos hz] at h
    simp only [List.cons.injEq, true_and] at h
    have := natStr_inj _ _ h
    omega
  · rw [if_pos hy, if_neg hz] at h
    have : (45 : ℕ) ∈ natStr z.natAbs := h ▸ List.mem_cons_self 45 _
    have := mem_natStr_ge _ _ this
    omega
  · rw [if_neg hy, if_pos hz] at h
    have : (45 : ℕ) ∈ natStr y.natAbs := h.symm ▸ List.mem_cons_self 45 _
    have := mem_natStr_ge _ _ this
    omega
  · rw [if_neg hy, if_neg hz] at h
    have := natStr_inj _ _ h
    omega

/-- Cancel an equal middle segment between an equal prefix and an equal
suffix. -/
theorem middle_cancel (A x y B : List ℕ) (h : A ++ (x ++ B) = A ++ (y ++ B)) :
    x = y :=
  List.append_cancel_right (List.append_cancel_left h)

/-! ### The SHA-1 digest is 20 bytes, hence the generator cannot be injective -/

/-- A SHA-1 digest has exactly 20 bytes. -/
theorem sha1_length (msg : List ℕ) : (sha1 msg).length = 20 := by
  simp [sha1, wordBytes]

/-- Every byte of a 4-byte word rendering is `< 256`. -/
theorem wordBytes_lt (w : ℕ) : ∀ x ∈ wordBytes w, x < 256 := by
  intro x hx
  simp only [wordBytes, List.mem_cons, List.not_mem_nil, or_false] at hx
  rcases hx with rfl | rfl | rfl | rfl <;> omega

/-- Every byte of a SHA-1 digest is `< 256`. -/
theorem sha1_bytes_lt (msg : List ℕ) : ∀ x ∈ sha1 msg, x < 256 := by
  intro x hx
  simp only [sha1, List.mem_append] at hx
  rcases hx with (((hx | hx) | hx) | hx) | hx <;> exact wordBytes_lt _ _ hx

theorem beEnc_lt (l : List ℕ) (hl : ∀ x ∈ l, x < 256) :
    beEnc l < 256 ^ l.length := by
  induction l with
  | nil => simp [beEnc]
  | cons b t ih =>
    have hb : b < 256 := hl b (List.mem_cons_self b t)
    have ht : beEnc t < 256 ^ t.length := ih (fun x hx => hl x (List.mem_cons_of_mem b hx))
    have hmul : 256 * (beEnc t + 1) ≤ 256 * 256 ^ t.length :=
      Nat.mul_le_mul_left 256 (Nat.succ_le_of_lt ht)
    have hbe : beEnc (b :: t) = b + 256 * beEnc t := rfl
    rw [hbe, List.length_cons, pow_succ]
    omega

theorem beEnc_inj (l1 l2 : List ℕ) (hlen : l1.length = l2.length)
    (h1 : ∀ x ∈ l1, x < 256) (h2 : ∀ x ∈ l2, x < 256)
    (henc : beEnc l1 = beEnc l2) : l1 = l2 := by
  induction l1 generalizing l2 with
  | nil =>
    cases l2 with
    | nil => rfl
    | cons b t => simp at hlen
  | cons a t ih =>
    cases l2 with
    | nil => simp at hlen
    | cons b u =>
      have ha : a < 256 := h1 a (List.mem_cons_self a t)
      have hb : b < 256 := h2 b (List.mem_cons_self b u)
      have hat : beEnc (a :: t) = a + 256 * beEnc t := rfl
      have hbu : beEnc (b :: u) = b + 256 * beEnc u := rfl
      rw [hat, hbu] at henc
      have hab : a = b := by omega
      have htu : beEnc t = beEnc u := by omega
      subst hab
      have hlen' : t.length = u.length := by simpa using hlen
      exact congrArg (List.cons a)
        (ih u hlen' (fun x hx => h1 x (List.mem_cons_of_mem a hx))
          (fun x hx => h2 x (List.mem_cons_of_mem a hx)) htu)

/-- C5 counterexample (negation of the claim): the identity generator maps the
unbounded space of cache names into 20-byte digests, so by the pigeonhole
principle two distinct names — all other fields identical, i.e. a pair of
inputs differing in a single field — must produce the *same* identity.  Hence
it is false that every single-field change changes the output. -/
theorem c5_single_field_collision_exists :
    ¬ (∀ (n1 n2 : List ℕ) (t w h f d : ℤ),
        n1 ≠ n2 → generateCacheID n1 t w h f d ≠ generateCacheID n2 t w h f d) := by
  intro hinj
  have hb : ∀ k : ℕ, beEnc (generateCacheID (List.replicate k 97) 0 0 0 0 0) < 256 ^ 20 := by
    intro k
    have h1 := sha1_length (cacheIDPreimage (List.replicate k 97) 0 0 0 0 0)
    have h2 := beEnc_lt (sha1 (cacheIDPreimage (List.replicate k 97) 0 0 0 0 0))
      (sha1_bytes_lt _)
    rw [h1] at h2
    exact h2
  obtain ⟨k1, k2, hne, heq⟩ := Finite.exists_ne_map_eq_of_infinite
    (fun k : ℕ => (⟨beEnc (generateCacheID (List.replicate k 97) 0 0 0 0 0), hb k⟩ :
      Fin (256 ^ 20)))
  have henc : beEnc (generateCacheID (List.replicate k1 97) 0 0 0 0 0) =
      beEnc (generateCacheID (List.replicate k2 97) 0 0 0 0 0) := by
    simpa using congrArg Fin.val heq
  have hdig : generateCacheID (List.replicate k1 97) 0 0 0 0 0 =
      generateCacheID (List.replicate k2 97) 0 0 0 0 0 := by
    simp only [generateCacheID] at henc ⊢
    exact beEnc_inj _ _ (by rw [sha1_length, sha1_length])
      (sha1_bytes_lt _) (sha1_bytes_lt _) henc
  have hnames : List.replicate k1 97 ≠ List.replicate k2 97 := by
    intro hrep
    exact hne (by simpa using congrArg List.length hrep)
  exact hinj _ _ 0 0 0 0 0 hnames hdig

/-- C5 (amended): the identity generator is a pure function (determinism is
definitional), and any change to a *single* field changes the byte string fed
to SHA-1 — each of the six fields is recovered uniquely from the
concatenation when the other five are fixed.  Distinctness of the *digests*
holds only up to SHA-1 collisions, which `c5_single_field_collision_exists`
shows cannot be avoided universally. -/
theorem generateCacheID_deterministic_and_field_sensitive :
    (∀ (n : List ℕ) (t w h f d : ℤ),
      generateCacheID n t w h f d = generateCacheID n t w h f d) ∧
    (∀ (n1 n2 : List ℕ) (t w h f d : ℤ), n1 ≠ n2 →
      cacheIDPreimage n1 t w h f d ≠ cacheIDPreimage n2 t w h f d) ∧
    (∀ (n : List ℕ) (t1 t2 w h f d : ℤ), t1 ≠ t2 →
      cacheIDPreimage n t1 w h f d ≠ cacheIDPreimage n t2 w h f d) ∧
    (∀ (n : List ℕ) (t w1 w2 h f d : ℤ), w1 ≠ w2 →
      cacheIDPreimage n t w1 h f d ≠ cacheIDPreimage n t w2 h f d) ∧
    (∀ (n : List ℕ) (t w h1 h2 f d : ℤ), h1 ≠ h2 →
      cacheIDPreimage n t w h1 f d ≠ cacheIDPreimage n t w h2 f d) ∧
    (∀ (n : List ℕ) (t w h f1 f2 d : ℤ), f1 ≠ f2 →
      cacheIDPreimage n t w h f1 d ≠ cacheIDPreimage n t w h f2 d) ∧
    (∀ (n : List ℕ) (t w h f d1 d2 : ℤ), d1 ≠ d2 →
      cacheIDPreimage n t w h f d1 ≠ cacheIDPreimage n t w h f d2) := by
  refine ⟨fun _ _ _ _ _ _ => rfl, ?_, ?_, ?_, ?_, ?_, ?_⟩
  · intro n1 n2 t w h f d hne heq
    exact hne (List.append_cancel_right heq)
  · intro n t1 t2 w h f d hne heq
    unfold cacheIDPreimage at heq
    exact hne (intStr_inj _ _ (middle_cancel n _ _ _ heq))
  · intro n t w1 w2 h f d hne heq
    unfold cacheIDPreimage at heq
    have := List.append_cancel_left heq
    exact hne (intStr_inj _ _ (middle_cancel (intStr t) _ _ _ this))
  · intro n t w h1 h2 f d hne heq
    unfold cacheIDPreimage at heq
    have := List.append_cancel_left (List.append_cancel_left heq)
    exact hne (intStr_inj _ _ (middle_cancel (intStr w) _ _ _ this))
  · intro n t w h f1 f2 d hne heq
    unfold cacheIDPreimage at heq
    have := List.append_cancel_left (List.append_cancel_left (List.append_cancel_left heq))
    exact hne (intStr_inj _ _ (middle_cancel (intStr h) _ _ _ this))
  · intro n t w h f d1 d2 hne heq
    unfold cacheIDPreimage at heq
    have := List.append_cancel_left (List.append_cancel_left
      (List.append_cancel_left (List.append_cancel_left heq)))
    exact hne (intStr_inj _ _ (List.append_cancel_left this))

/-! ### Scheduler invariants (C3, C4) -/

/-- The enqueue loop preserves queue deduplication (each append is guarded by
`contains`). -/
theorem enqueueLoop_nodup (tb endR r : ℚ) (q : List ℚ) (hq : q.Nodup) :
    (enqueueLoop tb endR r q).Nodup := by
  rw [enqueueLoop]
  split
  case isTrue h =>
    apply enqueueLoop_nodup
    by_cases hr : r ∈ q
    · rw [if_pos hr]; exact hq
    · rw [if_neg hr]
      simp [List.nodup_append, hq, hr]
  case isFalse h => exact hq
termination_by (⌊(endR - r) / tb⌋ + 1).toNat
decreasing_by
  have h : r ≤ endR ∧ 0 < tb := by assumption
  have h2 : endR - (r + tb) = (endR - r) - tb := by ring
  have h3 : (endR - r - tb) / tb = (endR - r) / tb - 1 := by
    rw [sub_div, div_self (ne_of_gt h.2)]
  have h4 : (0 : ℤ) ≤ ⌊(endR - r) / tb⌋ :=
    Int.floor_nonneg.2 (div_nonneg (by linarith [h.1]) (le_of_lt h.2))
  rw [h2, h3, Int.floor_sub_one]
  omega

theorem GenerateCacheIDInternal_eq_except (st : RState) :
    ∃ cid, GenerateCacheIDInternal st = { st with cacheId := cid } := by
  unfold GenerateCacheIDInternal
  split
  · exact ⟨st.cacheId, rfl⟩
  · exact ⟨sha1 (cacheIDPreimageOf st), rfl⟩

theorem Start_cacheQueue (st : RState) (n : ℕ) :
    (Start st n).cacheQueue = st.cacheQueue := by
  unfold Start
  split <;> rfl

theorem Start_caching (st : RState) (n : ℕ) :
    (Start st n).caching = st.caching := by
  unfold Start
  split <;> rfl

theorem Start_inFlightPrimary (st : RState) (n : ℕ) :
    (Start st n).inFlightPrimary = st.inFlightPrimary := by
  unfold Start
  split <;> rfl

theorem CacheNext_nodup (st : RState) (n : ℕ) (h : st.cacheQueue.Nodup) :
    (CacheNext st n).cacheQueue.Nodup := by
  unfold CacheNext
  split
  · exact h
  · show ((Start st n).cacheQueue.tail).Nodup
    rw [Start_cacheQueue]
    cases hq : st.cacheQueue with
    | nil => simp
    | cons a t =>
      rw [hq] at h
      simpa using h.of_cons

theorem stepR_nodup (st : RState) (ev : REvent) (h : st.cacheQueue.Nodup) :
    (stepR st ev).cacheQueue.Nodup := by
  cases ev with
  | setCacheName s now =>
    obtain ⟨cid, hg⟩ := GenerateCacheIDInternal_eq_except
      { st with cacheName := s, cacheTime := now }
    simpa [stepR, SetCacheName, hg] using h
  | setTimebase tb => simpa [stepR, SetTimebase] using h
  | setParameters w hh f m d =>
    simp only [stepR, SetParameters]
    obtain ⟨cid, hg⟩ := GenerateCacheIDInternal_eq_except
      (CalculateEffectiveDimensions
        (if 0 < d then { { Stop st with width := w, height := hh, format := f, mode := m }
          with divider := d }
         else { Stop st with width := w, height := hh, format := f, mode := m }))
    rw [hg]
    unfold CalculateEffectiveDimensions Stop
    split_ifs <;> simpa using h
  | setDivider d =>
    simp only [stepR, SetDivider]
    obtain ⟨cid, hg⟩ := GenerateCacheIDInternal_eq_except
      (CalculateEffectiveDimensions { Stop st with divider := d })
    rw [hg]
    unfold CalculateEffectiveDimensions Stop
    split_ifs <;> simpa using h
  | invalidate s e n =>
    simp only [stepR, InvalidateCache]
    cases htb : st.timebase with
    | none => exact h
    | some tb =>
      apply CacheNext_nodup
      exact enqueueLoop_nodup tb e (codeSnap tb s) st.cacheQueue h
  | masterDone n =>
    exact CacheNext_nodup _ n (by simpa using h)
  | otherDone => simpa [stepR, ThreadCallbackOther] using h
  | stopReq =>
    simp only [stepR, Stop]
    split_ifs <;> simpa using h
  | connect => simpa [stepR] using h
  | disconnect => simpa [stepR] using h

theorem foldl_stepR_nodup (evs : List REvent) (st : RState)
    (h : st.cacheQueue.Nodup) : ((evs.foldl stepR st).cacheQueue).Nodup := by
  induction evs generalizing st with
  | nil => exact h
  | cons ev rest ih => exact ih (stepR st ev) (stepR_nodup st ev h)

/-- C3: in every reachable scheduler state the invalidation queue holds no
timestamp twice — re-invalidating a range containing an already queued
timestamp never adds a duplicate entry. -/
theorem runR_queue_nodup (evs : List REvent) : (runR evs).cacheQueue.Nodup :=
  foldl_stepR_nodup evs initState (by simp [initState])

theorem CacheNext_inv (st : RState) (n : ℕ) (h : SchedInv st) :
    SchedInv (CacheNext st n) := by
  unfold CacheNext
  split
  · exact h
  case isFalse hg =>
    have hcaching : st.caching = false := by
      cases hc : st.caching
      · rfl
      · exact absurd (Or.inr (Or.inr hc)) hg
    have hzero : st.inFlightPrimary = 0 := h.2 hcaching
    constructor
    · show (Start st n).inFlightPrimary + 1 ≤ 1
      simp [Start_inFlightPrimary, hzero]
    · intro hfalse
      simp at hfalse

theorem stepR_inv (st : RState) (ev : REvent) (h : SchedInv st) :
    SchedInv (stepR st ev) := by
  cases ev with
  | setCacheName s now =>
    obtain ⟨cid, hg⟩ := GenerateCacheIDInternal_eq_except
      { st with cacheName := s, cacheTime := now }
    simp only [stepR, SetCacheName, hg]
    exact h
  | setTimebase tb => exact h
  | setParameters w hh f m d =>
    simp only [stepR, SetParameters]
    obtain ⟨cid, hg⟩ := GenerateCacheIDInternal_eq_except
      (CalculateEffectiveDimensions
        (if 0 < d then { { Stop st with width := w, height := hh, format := f, mode := m }
          with divider := d }
         else { Stop st with width := w, height := hh, format := f, mode := m }))
    rw [hg]
    unfold CalculateEffectiveDimensions Stop
    split_ifs <;> first
      | exact h
      | exact ⟨by simp, by simp⟩
  | setDivider d =>
    simp only [stepR, SetDivider]
    obtain ⟨cid, hg⟩ := GenerateCacheIDInternal_eq_except
      (CalculateEffectiveDimensions { Stop st with divider := d })
    rw [hg]
    unfold CalculateEffectiveDimensions Stop
    split_ifs <;> first
      | exact h
      | exact ⟨by simp, by simp⟩
  | invalidate s e n =>
    simp only [stepR, InvalidateCache]
    cases st.timebase with
    | none => exact h
    | some tb => exact CacheNext_inv _ n ⟨h.1, h.2⟩
  | masterDone n =>
    obtain ⟨h1, h2⟩ := h
    apply CacheNext_inv
    constructor
    · show st.inFlightPrimary - 1 ≤ 1
      omega
    · intro hc
      show st.inFlightPrimary - 1 = 0
      omega
  | otherDone => exact h
  | stopReq =>
    simp only [stepR, Stop]
    split_ifs with hs
    · exact h
    · exact ⟨by simp, by simp⟩
  | connect => exact ⟨h.1, h.2⟩
  | disconnect => exact ⟨h.1, h.2⟩

theorem foldl_stepR_inv (evs : List REvent) (st : RState) (h : SchedInv st) :
    SchedInv (evs.foldl stepR st) := by
  induction evs generalizing st with
  | nil => exact h
  | cons ev rest ih => exact ih (stepR st ev) (stepR_inv st ev h)

/-- C4: in every reachable scheduler state at most one primary render is in
flight — `CacheNext` dispatches only with the `caching_` flag clear, sets it
on dispatch, and only the master worker's completion callback clears it
before the next dispatch. -/
theorem runR_at_most_one_primary (evs : List REvent) :
    (runR evs).inFlightPrimary ≤ 1 :=
  (foldl_stepR_inv evs initState ⟨by simp [initState], fun _ => by simp [initState]⟩).1

/-! ### Cache identity guard (C6) -/

/-- C6 counterexample: in a state whose identity was generated earlier and
whose cache name has since been cleared (reachable via `SetCacheName("a")`
with valid dimensions, then `SetCacheName("")`), the generator does *not*
return an empty/sentinel identity — the stale identity stays in place. -/
theorem c6_stale_identity_counterexample :
    ¬ ((GenerateCacheIDInternal c6State).cacheId = []) := by decide

/-- C6 (amended): when the cache name is empty or an effective dimension is
zero, `GenerateCacheIDInternal` returns with *no* effect at all: the previous
identity (the empty sentinel only in the initial state) remains, and nothing
else changes. -/
theorem GenerateCacheIDInternal_guard_noop (st : RState)
    (h : st.cacheName = [] ∨ st.effectiveWidth = 0 ∨ st.effectiveHeight = 0) :
    GenerateCacheIDInternal st = st := by
  unfold GenerateCacheIDInternal
  exact if_pos h

/-- Witness for `GenerateCacheIDInternal_guard_noop`. -/
theorem GenerateCacheIDInternal_guard_noop_witness :
    (c6State.cacheName = [] ∨ c6State.effectiveWidth = 0 ∨
      c6State.effectiveHeight = 0) ∧
    GenerateCacheIDInternal c6State = c6State :=
  ⟨Or.inl rfl, GenerateCacheIDInternal_guard_noop c6State (Or.inl rfl)⟩

/-! ### Read-path guards (C7) -/

/-- C7 counterexample: with the texture input disconnected, `Value` returns
empty and leaves the state unchanged but logs *no* warning (the source has
only a comment on that branch), so "a distinct warning for that specific
condition" fails. -/
theorem c7_no_warning_counterexample :
    ¬ ((Value c7DisconnectedState true 0 false false).texture = false ∧
       (Value c7DisconnectedState true 0 false false).warnings.length = 1 ∧
       (Value c7DisconnectedState true 0 false false).post = c7DisconnectedState) := by
  decide

/-- C7 (amended): on each of the three guard conditions — disconnected input,
missing cache identity, unset timebase — `Value` returns empty and leaves the
scheduler state unchanged; the missing-identity and missing-timebase cases
each log their own distinct warning, while the disconnected case logs
nothing. -/
theorem Value_guard_paths (st : RState) (time : ℚ) (fe oo : Bool)
    (h : st.connected = false ∨ st.cacheId = [] ∨ st.timebase = none) :
    (Value st true time fe oo).texture = false ∧
    (Value st true time fe oo).post = st ∧
    (Value st true time fe oo).warnings =
      (if st.connected = false then []
       else if st.cacheId = [] then [RWarning.noCacheID]
       else [RWarning.noTimebase]) := by
  unfold Value
  split_ifs <;> simp_all

/-- Witness for `Value_guard_paths`: a connected state with no cache identity
logs the missing-identity warning. -/
theorem Value_guard_paths_witness :
    (c7WitnessState.connected = false ∨ c7WitnessState.cacheId = [] ∨
      c7WitnessState.timebase = none) ∧
    (Value c7WitnessState true 0 true true).texture = false ∧
    (Value c7WitnessState true 0 true true).post = c7WitnessState ∧
    (Value c7WitnessState true 0 true true).warnings =
      (if c7WitnessState.connected = false then []
       else if c7WitnessState.cacheId = [] then [RWarning.noCacheID]
       else [RWarning.noTimebase]) :=
  ⟨Or.inr (Or.inl rfl), Value_guard_paths c7WitnessState 0 true true (Or.inr (Or.inl rfl))⟩

/-! ### Parameter changes (C9) -/

/-- C9 counterexample: C++ `int` division truncates toward zero, so with
`width = -3`, `divider = 2` the effective width is `-1`, not
`floor(-3/2) = -2` as the claim's `floor(width/divider)` prescribes. -/
theorem c9_truncation_counterexample :
    ¬ ((SetParameters c9StartedState (-3) 4 0 0 2).effectiveWidth =
        ⌊((-3 : ℚ) / (2 : ℚ))⌋) := by
  have h1 : (SetParameters c9StartedState (-3) 4 0 0 2).effectiveWidth = -1 := by decide
  have h2 : ⌊((-3 : ℚ) / (2 : ℚ))⌋ = -2 := by norm_num
  rw [h1, h2]
  decide

/-- C9 (amended): a parameter change while started stops the pipeline
(workers cancelled, master texture and readback buffer released); for
non-negative dimensions and a positive divider the effective dimensions
become `floor(width/divider)`, `floor(height/divider)` (C++ division
truncates toward zero, which only matches `floor` on non-negative operands);
and a divider-only change replaces the hash preimage of the cache identity by
a different byte string (a different identity barring SHA-1 collision),
provided the generator's guard does not fire. -/
theorem SetParameters_spec (st : RState) (w h f m d : ℤ)
    (hst : st.started = true) (hw : 0 ≤ w) (hh : 0 ≤ h) (hd : 0 < d) :
    (SetParameters st w h f m d).started = false ∧
    (SetParameters st w h f m d).threads = 0 ∧
    (SetParameters st w h f m d).downloadThreads = 0 ∧
    (SetParameters st w h f m d).masterTexture = false ∧
    (SetParameters st w h f m d).loadBuffer = false ∧
    (SetParameters st w h f m d).effectiveWidth = ⌊(w : ℚ) / (d : ℚ)⌋ ∧
    (SetParameters st w h f m d).effectiveHeight = ⌊(h : ℚ) / (d : ℚ)⌋ ∧
    (w = st.width → h = st.height → f = st.format → d ≠ st.divider →
      cacheIDPreimageOf (SetParameters st w h f m d) ≠ cacheIDPreimageOf st) := by
  have hfloor : ∀ a : ℤ, 0 ≤ a → Int.tdiv a d = ⌊(a : ℚ) / (d : ℚ)⌋ := by
    intro a ha
    have hdn : ((d.toNat : ℕ) : ℤ) = d := Int.toNat_of_nonneg hd.le
    have hdq : ((d.toNat : ℕ) : ℚ) = (d : ℚ) := by exact_mod_cast congrArg Int.cast hdn
    rw [← hdq, Rat.floor_intCast_div_natCast a d.toNat, hdn]
    exact Int.tdiv_eq_ediv ha hd.le
  have hsp : SetParameters st w h f m d =
      GenerateCacheIDInternal (CalculateEffectiveDimensions
        { Stop st with width := w, height := h, format := f, mode := m, divider := d }) := by
    simp [SetParameters, hd]
  obtain ⟨cid, hg⟩ := GenerateCacheIDInternal_eq_except
    (CalculateEffectiveDimensions
      { Stop st with width := w, height := h, format := f, mode := m, divider := d })
  rw [hsp, hg]
  unfold CalculateEffectiveDimensions Stop
  rw [if_neg (by simp [hst])]
  refine ⟨rfl, rfl, rfl, rfl, rfl, ?_, ?_, ?_⟩
  · exact hfloor w hw
  · exact hfloor h hh
  · intro hweq hheq hfeq hdne heq
    have heq' : cacheIDPreimage st.cacheName st.cacheTime w h f d =
        cacheIDPreimage st.cacheName st.cacheTime st.width st.height st.format st.divider := heq
    rw [hweq, hheq, hfeq] at heq'
    unfold cacheIDPreimage at heq'
    have h5 := List.append_cancel_left (List.append_cancel_left
      (List.append_cancel_left (List.append_cancel_left heq')))
    exact hdne (intStr_inj _ _ (List.append_cancel_left h5))

/-- Witness for `SetParameters_spec`: divider changes from 1 to 2 on a
started pipeline with a set cache name; dimensions halve and the hash
preimage changes. -/
theorem SetParameters_spec_witness :
    c9WitnessState.started = true ∧
    (0 : ℤ) ≤ 6 ∧ (0 : ℤ) ≤ 4 ∧ (0 : ℤ) < 2 ∧
    ((SetParameters c9WitnessState 6 4 0 0 2).started = false ∧
     (SetParameters c9WitnessState 6 4 0 0 2).threads = 0 ∧
     (SetParameters c9WitnessState 6 4 0 0 2).downloadThreads = 0 ∧
     (SetParameters c9WitnessState 6 4 0 0 2).masterTexture = false ∧
     (SetParameters c9WitnessState 6 4 0 0 2).loadBuffer = false ∧
     (SetParameters c9WitnessState 6 4 0 0 2).effectiveWidth =
       ⌊((6 : ℤ) : ℚ) / ((2 : ℤ) : ℚ)⌋ ∧
     (SetParameters c9WitnessState 6 4 0 0 2).effectiveHeight =
       ⌊((4 : ℤ) : ℚ) / ((2 : ℤ) : ℚ)⌋ ∧
     ((6 : ℤ) = c9WitnessState.width → (4 : ℤ) = c9WitnessState.height →
      (0 : ℤ) = c9WitnessState.format → (2 : ℤ) ≠ c9WitnessState.divider →
      cacheIDPreimageOf (SetParameters c9WitnessState 6 4 0 0 2) ≠
        cacheIDPreimageOf c9WitnessState)) :=
  ⟨rfl, by decide, by decide, by decide,
   SetParameters_spec c9WitnessState 6 4 0 0 2 rfl (by decide) (by decide) (by decide)⟩

/-! ### Output-buffer length (C2) -/

theorem writeBytes_length (data : List ℕ) : ∀ (buf : List ℕ) (off : ℕ),
    (writeBytes buf off data).length = buf.length := by
  induction data with
  | nil => intro buf off; rfl
  | cons b rest ih =>
    intro buf off
    show (writeBytes (buf.set off b) (off + 1) rest).length = buf.length
    rw [ih (buf.set off b) (off + 1), List.length_set]

theorem renderBlockStep_length (p : AudioRenderingParams)
    (eval : Block → TimeRange → List ℕ) (fuel : ℕ) (range : TimeRange)
    (buf : List ℕ) (b : Block) :
    (renderBlockStep p eval fuel range buf b).length = buf.length := by
  unfold renderBlockStep
  cases he : (eval b ⟨max b.bin range.rin, min b.bout range.rout⟩).isEmpty <;>
    · simp only [he]
      split_ifs <;> simp [writeBytes_length]

theorem foldl_renderBlockStep_length (p : AudioRenderingParams)
    (eval : Block → TimeRange → List ℕ) (fuel : ℕ) (range : TimeRange)
    (bs : List Block) : ∀ buf : List ℕ,
    (bs.foldl (renderBlockStep p eval fuel range) buf).length = buf.length := by
  induction bs with
  | nil => intro buf; rfl
  | cons b rest ih =>
    intro buf
    show (rest.foldl _ (renderBlockStep p eval fuel range buf b)).length = _
    rw [ih, renderBlockStep_length]

/-- C2: the sample buffer returned by `RenderBlock` has length exactly
`audio_params.time_to_bytes(range.length())` bytes, whatever the overlapping
blocks, their speeds, reversal flags, or the sizes of their rendered
sub-range buffers: the output buffer is allocated at that size and only ever
written in place. -/
theorem RenderBlock_samples_length (p : AudioRenderingParams)
    (eval : Block → TimeRange → List ℕ) (fuel : ℕ) (active_blocks : List Block)
    (range : TimeRange) (h : 0 ≤ p.time_to_bytes range.length) :
    ((RenderBlock p eval fuel active_blocks range).length : ℤ) =
      p.time_to_bytes range.length := by
  unfold RenderBlock
  rw [foldl_renderBlockStep_length, List.length_replicate,
    Int.toNat_of_nonneg h]

/-- Witness for `RenderBlock_samples_length`: one block of garbage-sized
rendered audio over a 1-second range at 4 bytes/sample, 2 samples/second. -/
theorem RenderBlock_samples_length_witness :
    0 ≤ AudioRenderingParams.time_to_bytes ⟨2, 4⟩ (TimeRange.length ⟨0, 1⟩) ∧
    ((RenderBlock ⟨2, 4⟩ (fun _ _ => [7, 7, 7]) 5
        [⟨0, 1, 1, 1, false⟩] ⟨0, 1⟩).length : ℤ) =
      AudioRenderingParams.time_to_bytes ⟨2, 4⟩ (TimeRange.length ⟨0, 1⟩) :=
  ⟨by norm_num [AudioRenderingParams.time_to_bytes, AudioRenderingParams.time_to_samples,
     AudioRenderingParams.samples_to_bytes, TimeRange.length],
   RenderBlock_samples_length ⟨2, 4⟩ (fun _ _ => [7, 7, 7]) 5 [⟨0, 1, 1, 1, false⟩] ⟨0, 1⟩
     (by norm_num [AudioRenderingParams.time_to_bytes, AudioRenderingParams.time_to_samples,
       AudioRenderingParams.samples_to_bytes, TimeRange.length])⟩

/-! ### Reversal involution (C8) -/

theorem revGo_zero (s len src : ℕ) (buf : List ℕ) : revGo s len 0 src buf = buf := rfl

theorem revGo_succ (s len n src : ℕ) (buf : List ℕ) :
    revGo s len (n + 1) src buf =
      revGo s len n (src + s) (swapSeg buf src (len - s - src) s) := rfl

theorem segAt_at (A X R : List ℕ) (s : ℕ) (hX : X.length = s) :
    segAt (A ++ (X ++ R)) A.length s = X := by
  unfold segAt
  rw [List.drop_left, ← hX, List.take_left]

theorem overwrite_at (A X R Y : List ℕ) (hXY : Y.length = X.length) :
    overwrite (A ++ (X ++ R)) A.length Y = A ++ (Y ++ R) := by
  unfold overwrite
  have h1 : (A ++ (X ++ R)).take A.length = A := List.take_left A (X ++ R)
  have h2 : (A ++ (X ++ R)).drop (A.length + Y.length) = R := by
    rw [hXY, ← List.append_assoc]
    have hl : (A ++ X).length = A.length + X.length := List.length_append A X
    rw [← hl, List.drop_left]
  rw [h1, h2]
  simp [List.append_assoc]

theorem swapSeg_blocks (A X M Y B : List ℕ) (s : ℕ) (hX : X.length = s)
    (hY : Y.length = s) :
    swapSeg (A ++ (X ++ (M ++ (Y ++ B)))) A.length (A.length + s + M.length) s =
      A ++ (Y ++ (M ++ (X ++ B))) := by
  unfold swapSeg
  have htmp : segAt (A ++ (X ++ (M ++ (Y ++ B)))) A.length s = X := segAt_at _ _ _ _ hX
  have hAXM : (A ++ (X ++ M)).length = A.length + s + M.length := by
    simp [List.length_append, hX]
    omega
  have hdseg : segAt (A ++ (X ++ (M ++ (Y ++ B)))) (A.length + s + M.length) s = Y := by
    have hre : A ++ (X ++ (M ++ (Y ++ B))) = (A ++ (X ++ M)) ++ (Y ++ B) := by
      simp [List.append_assoc]
    rw [hre, ← hAXM]
    exact segAt_at _ _ _ _ hY
  rw [htmp, hdseg]
  have ho1 : overwrite (A ++ (X ++ (M ++ (Y ++ B)))) A.length Y =
      A ++ (Y ++ (M ++ (Y ++ B))) := overwrite_at _ _ _ _ (by rw [hX, hY])
  rw [ho1]
  have hre2 : A ++ (Y ++ (M ++ (Y ++ B))) = (A ++ (Y ++ M)) ++ (Y ++ B) := by
    simp [List.append_assoc]
  have hAYM : (A ++ (Y ++ M)).length = A.length + s + M.length := by
    simp [List.length_append, hY]
    omega
  rw [hre2, ← hAYM]
  have ho2 : overwrite ((A ++ (Y ++ M)) ++ (Y ++ B)) (A ++ (Y ++ M)).length X =
      (A ++ (Y ++ M)) ++ (X ++ B) := overwrite_at _ _ _ _ (by rw [hX, hY])
  rw [ho2]
  simp [List.append_assoc]

theorem overwrite_segAt_self (buf : List ℕ) (a s : ℕ) (hin : a + s ≤ buf.length) :
    overwrite buf a (segAt buf a s) = buf := by
  unfold overwrite segAt
  have hlen : ((buf.drop a).take s).length = s := by
    rw [List.length_take, List.length_drop]
    omega
  rw [hlen]
  have hdd : buf.drop (a + s) = (buf.drop a).drop s := by
    rw [List.drop_drop]
  have htd : (buf.drop a).take s ++ (buf.drop a).drop s = buf.drop a :=
    List.take_append_drop s (buf.drop a)
  calc buf.take a ++ (buf.drop a).take s ++ buf.drop (a + s)
      = buf.take a ++ ((buf.drop a).take s ++ buf.drop (a + s)) :=
        List.append_assoc _ _ _
    _ = buf.take a ++ buf.drop a := by rw [hdd, htd]
    _ = buf := List.take_append_drop a buf

theorem swapSeg_self (buf : List ℕ) (a s : ℕ) (hin : a + s ≤ buf.length) :
    swapSeg buf a a s = buf := by
  unfold swapSeg
  rw [overwrite_segAt_self buf a s hin, overwrite_segAt_self buf a s hin]

theorem chunkRev_nil (s : ℕ) : chunkRev s [] = [] := by
  rw [chunkRev]
  exact dif_pos (Or.inr rfl)

theorem chunkRev_cons (s : ℕ) (hs : 0 < s) (X R : List ℕ) (hX : X.length = s) :
    chunkRev s (X ++ R) = chunkRev s R ++ X := by
  have hXne : X ≠ [] := by
    intro hc
    rw [hc] at hX
    simp at hX
    omega
  rw [chunkRev]
  rw [dif_neg (by push_neg; exact ⟨by omega, by simp [hXne]⟩)]
  rw [List.drop_left' hX, List.take_left' hX]

theorem chunkRev_single (s : ℕ) (hs : 0 < s) (X : List ℕ) (hX : X.length = s) :
    chunkRev s X = X := by
  have h := chunkRev_cons s hs X [] hX
  rw [List.append_nil] at h
  rw [h, chunkRev_nil, List.nil_append]

theorem chunkRev_append_chunk (s : ℕ) (hs : 0 < s) : ∀ (k : ℕ) (M Y : List ℕ),
    M.length = k * s → Y.length = s →
    chunkRev s (M ++ Y) = Y ++ chunkRev s M := by
  intro k
  induction k with
  | zero =>
    intro M Y hM hY
    have hM0 : M = [] := List.length_eq_zero.1 (by simpa using hM)
    subst hM0
    rw [List.nil_append, chunkRev_nil, List.append_nil, chunkRev_single s hs Y hY]
  | succ k ih =>
    intro M Y hM hY
    have hsplit : M.take s ++ M.drop s = M := List.take_append_drop s M
    have hXlen : (M.take s).length = s := by
      rw [List.length_take]
      have : s ≤ M.length := by rw [hM]; calc s = 1 * s := (one_mul s).symm
        _ ≤ (k + 1) * s := Nat.mul_le_mul_right s (by omega)
      omega
    have hMd : (M.drop s).length = k * s := by
      rw [List.length_drop, hM]
      have : (k + 1) * s = k * s + s := by ring
      omega
    calc chunkRev s (M ++ Y)
        = chunkRev s ((M.take s ++ M.drop s) ++ Y) := by rw [hsplit]
      _ = chunkRev s (M.take s ++ (M.drop s ++ Y)) := by rw [List.append_assoc]
      _ = chunkRev s (M.drop s ++ Y) ++ M.take s := chunkRev_cons s hs _ _ hXlen
      _ = (Y ++ chunkRev s (M.drop s)) ++ M.take s := by rw [ih (M.drop s) Y hMd hY]
      _ = Y ++ (chunkRev s (M.drop s) ++ M.take s) := by rw [List.append_assoc]
      _ = Y ++ chunkRev s (M.take s ++ M.drop s) := by rw [chunkRev_cons s hs _ _ hXlen]
      _ = Y ++ chunkRev s M := by rw [hsplit]

theorem chunkRev_length (s : ℕ) (l : List ℕ) : (chunkRev s l).length = l.length := by
  rw [chunkRev]
  split
  · rfl
  case isFalse h =>
    push_neg at h
    have h0 : 0 < l.length := List.length_pos.2 h.2
    rw [List.length_append, chunkRev_length s (l.drop s), List.length_drop,
      List.length_take]
    omega
termination_by l.length
decreasing_by
  have h : ¬(s = 0 ∨ l = []) := by assumption
  push_neg at h
  have h0 : 0 < l.length := List.length_pos.2 h.2
  simp only [List.length_drop]
  omega

theorem chunkRev_chunkRev (s : ℕ) (hs : 0 < s) : ∀ (k : ℕ) (l : List ℕ),
    l.length = k * s → chunkRev s (chunkRev s l) = l := by
  intro k
  induction k with
  | zero =>
    intro l hl
    have : l = [] := List.length_eq_zero.1 (by simpa using hl)
    subst this
    rw [chunkRev_nil, chunkRev_nil]
  | succ k ih =>
    intro l hl
    have hsplit : l.take s ++ l.drop s = l := List.take_append_drop s l
    have hXlen : (l.take s).length = s := by
      rw [List.length_take]
      have : s ≤ l.length := by rw [hl]; calc s = 1 * s := (one_mul s).symm
        _ ≤ (k + 1) * s := Nat.mul_le_mul_right s (by omega)
      omega
    have hld : (l.drop s).length = k * s := by
      rw [List.length_drop, hl]
      have : (k + 1) * s = k * s + s := by ring
      omega
    have hcd : (chunkRev s (l.drop s)).length = k * s := by
      rw [chunkRev_length, hld]
    calc chunkRev s (chunkRev s l)
        = chunkRev s (chunkRev s (l.take s ++ l.drop s)) := by rw [hsplit]
      _ = chunkRev s (chunkRev s (l.drop s) ++ l.take s) := by
          rw [chunkRev_cons s hs _ _ hXlen]
      _ = l.take s ++ chunkRev s (chunkRev s (l.drop s)) :=
          chunkRev_append_chunk s hs k _ _ hcd hXlen
      _ = l.take s ++ l.drop s := by rw [ih (l.drop s) hld]
      _ = l := hsplit

/-- The reversal loop on a buffer of `k` whole samples, flanked by an equal
amount of already-processed material on each side, reverses the sample
sequence of the middle. -/
theorem revGo_spec (s : ℕ) (hs : 0 < s) : ∀ (k : ℕ) (pre mid suf : List ℕ),
    pre.length = suf.length → mid.length = k * s →
    revGo s (pre ++ (mid ++ suf)).length ((k * s / 2 + s - 1) / s) pre.length
        (pre ++ (mid ++ suf)) = pre ++ (chunkRev s mid ++ suf) := by
  intro k
  induction k using Nat.strong_induction_on with
  | _ k ih =>
    intro pre mid suf hps hmid
    match k, ih, hmid with
    | 0, _, hmid =>
      have hmid0 : mid = [] := List.length_eq_zero.1 (by simpa using hmid)
      subst hmid0
      have hiter : (0 * s / 2 + s - 1) / s = 0 := Nat.div_eq_of_lt (by omega)
      rw [hiter, revGo_zero, chunkRev_nil]
    | 1, _, hmid =>
      rcases Nat.lt_or_ge s 2 with hs2 | hs2
      · -- s = 1 : `half_buffer_sz = 0`, no iterations; a single 1-byte sample
        have hs1 : s = 1 := by omega
        subst hs1
        have hiter : (1 * 1 / 2 + 1 - 1) / 1 = 0 := by norm_num
        rw [hiter, revGo_zero, chunkRev_single 1 hs mid (by simpa using hmid)]
      · -- s ≥ 2 : one self-swap iteration on the single middle sample
        have hiter : (1 * s / 2 + s - 1) / s = 1 := by
          rw [one_mul]
          apply Nat.div_eq_of_lt_le
          · omega
          · have : s / 2 < s := Nat.div_lt_self (by omega) (by omega)
            omega
        rw [hiter, revGo_succ]
        have hlen : (pre ++ (mid ++ suf)).length =
            pre.length + (s + pre.length) := by
          simp only [List.length_append, hmid]
          omega
        have hdst : (pre ++ (mid ++ suf)).length - s - pre.length = pre.length := by
          omega
        rw [hdst, swapSeg_self _ _ _ (by omega), revGo_zero,
          chunkRev_single s hs mid (by simpa using hmid)]
    | (k + 2), ih, hmid =>
      have ht : mid.length = k * s + s + s := by rw [hmid]; ring
      have hX : (mid.take s).length = s := by
        rw [List.length_take]
        omega
      have hMd : ((mid.drop s).take (k * s)).length = k * s := by
        rw [List.length_take, List.length_drop]
        omega
      have hY : ((mid.drop s).drop (k * s)).length = s := by
        rw [List.length_drop, List.length_drop]
        omega
      have hsplit : mid = mid.take s ++ ((mid.drop s).take (k * s) ++
          (mid.drop s).drop (k * s)) := by
        rw [List.take_append_drop, List.take_append_drop]
      set X := mid.take s with hXdef
      set M := (mid.drop s).take (k * s) with hMdef
      set Y := (mid.drop s).drop (k * s) with hYdef
      have hiter : ((k + 2) * s / 2 + s - 1) / s = (k * s / 2 + s - 1) / s + 1 := by
        have h2 : (k + 2) * s = k * s + 2 * s := by ring
        rw [h2, Nat.add_mul_div_left _ _ (by norm_num : 0 < 2)]
        have h3 : k * s / 2 + s + s - 1 = (k * s / 2 + s - 1) + s := by omega
        rw [h3, Nat.add_div_right _ hs]
      rw [hiter, hsplit]
      simp only [List.append_assoc]
      rw [revGo_succ]
      have hlen : (pre ++ (X ++ (M ++ (Y ++ suf)))).length =
          pre.length + (s + (k * s + (s + suf.length))) := by
        simp only [List.length_append, hX, hMd, hY]
      have hdst : (pre ++ (X ++ (M ++ (Y ++ suf)))).length - s - pre.length =
          pre.length + s + M.length := by
        rw [hlen, hMd, ← hps]
        omega
      rw [hdst, swapSeg_blocks pre X M Y suf s hX hY]
      have ihk := ih k (by omega) (pre ++ Y) M (X ++ suf)
        (by simp only [List.length_append, hX, hY, hps]; omega) hMd
      have hlen2 : ((pre ++ Y) ++ (M ++ (X ++ suf))).length =
          (pre ++ (X ++ (M ++ (Y ++ suf)))).length := by
        simp only [List.length_append, hX, hY]
        omega
      have hsrc : (pre ++ Y).length = pre.length + s := by
        simp [List.length_append, hY]
      have hbuf2 : (pre ++ Y) ++ (M ++ (X ++ suf)) =
          pre ++ (Y ++ (M ++ (X ++ suf))) := List.append_assoc _ _ _
      rw [hlen2, hsrc, hbuf2] at ihk
      rw [ihk]
      have hcr : chunkRev s (X ++ (M ++ Y)) = Y ++ (chunkRev s M ++ X) := by
        rw [chunkRev_cons s hs X (M ++ Y) hX,
          chunkRev_append_chunk s hs k M Y hMd hY, List.append_assoc]
      rw [hcr]
      simp [List.append_assoc]

/-- On a buffer that is a whole number of samples, the in-place reversal loop
computes exactly the sample-wise reversal. -/
theorem reverseSamples_eq_chunkRev (s : ℕ) (hs : 0 < s) (buf : List ℕ)
    (hdvd : s ∣ buf.length) : reverseSamples s buf = chunkRev s buf := by
  obtain ⟨k, hk⟩ := hdvd
  have hk' : buf.length = k * s := by rw [hk]; ring
  have hspec := revGo_spec s hs k [] buf [] rfl hk'
  simp only [List.nil_append, List.append_nil, List.length_nil] at hspec
  have hcnt : (buf.length / 2 + s - 1) / s = (k * s / 2 + s - 1) / s := by
    rw [hk']
  show revGo s buf.length ((buf.length / 2 + s - 1) / s) 0 buf = chunkRev s buf
  rw [hcnt]
  exact hspec

/-- C8: the in-place sample-buffer reversal step of `RenderBlock` is
involutive — on any buffer whose byte length is a whole number of samples,
applying it twice restores the original buffer byte for byte. -/
theorem reverseSamples_involutive (s : ℕ) (buf : List ℕ) (hs : 0 < s)
    (hdvd : s ∣ buf.length) :
    reverseSamples s (reverseSamples s buf) = buf := by
  obtain ⟨k, hk⟩ := hdvd
  have h1 := reverseSamples_eq_chunkRev s hs buf ⟨k, hk⟩
  have hlen2 : (chunkRev s buf).length = buf.length := chunkRev_length s buf
  have h2 := reverseSamples_eq_chunkRev s hs (chunkRev s buf)
    (by rw [hlen2]; exact ⟨k, hk⟩)
  rw [h1, h2]
  exact chunkRev_chunkRev s hs k buf (by rw [hk]; ring)

/-- Witness for `reverseSamples_involutive`: 2-byte samples, a 3-sample
buffer. -/
theorem reverseSamples_involutive_witness :
    0 < 2 ∧ (2 : ℕ) ∣ ([1, 2, 3, 4, 5, 6] : List ℕ).length ∧
    reverseSamples 2 (reverseSamples 2 [1, 2, 3, 4, 5, 6]) = [1, 2, 3, 4, 5, 6] ∧
    reverseSamples 2 [1, 2, 3, 4, 5, 6] = [5, 6, 3, 4, 1, 2] :=
  ⟨by decide, by decide,
   reverseSamples_involutive 2 [1, 2, 3, 4, 5, 6] (by decide) (by decide),
   by decide⟩

/-- Witness for `generateCacheID_deterministic_and_field_sensitive`: name
`"a"` vs `"b"`, and divider `1` vs `2`, each change the hash input. -/
theorem generateCacheID_field_sensitive_witness :
    ([97] : List ℕ) ≠ [98] ∧
    cacheIDPreimage [97] 0 640 480 2 1 ≠ cacheIDPreimage [98] 0 640 480 2 1 ∧
    (1 : ℤ) ≠ 2 ∧
    cacheIDPreimage [97] 0 640 480 2 1 ≠ cacheIDPreimage [97] 0 640 480 2 2 :=
  ⟨by decide,
   generateCacheID_deterministic_and_field_sensitive.2.1 [97] [98] 0 640 480 2 1 (by decide),
   by decide,
   generateCacheID_deterministic_and_field_sensitive.2.2.2.2.2.2 [97] 0 640 480 2 1 2
     (by decide)⟩
